import Mathlib

/-! # Verification model of the `speech_to_text` transcription pipeline

Shallow embedding of `src/transcribe_whisper.py` (and its caller in
`src/generate_srt.py`).  Python strings are modelled as `List Char`,
float seconds as `ℚ`, and the external collaborators (the wave/pydub
duration probe, pydub segment extraction, and the Whisper engine) as
explicit parameters describing their outcomes, so that the orchestration
logic of `transcribe_audio` is captured for every possible behaviour of
those collaborators. -/

namespace SpeechToText

/-! ## Python primitives used by `transcribe_whisper.py` -/

/-- Fuel-driven worker for `pyRange`; the fuel is an upper bound on the
number of produced elements, consumed one unit per element. -/
def pyRangeGo : ℕ → ℤ → ℤ → ℤ → List ℤ
  | 0, _, _, _ => []
  | fuel + 1, start, stop, step =>
    if start < stop then start :: pyRangeGo fuel (start + step) stop step else []

/-- Python `range(start, stop, step)` as the list of produced values.
A non-positive step yields no iterations here, which matches Python for a
negative step; Python's `ValueError` for `step = 0` is raised at the call
site and is modelled there (in `transcribe_audio`). -/
def pyRange (start stop step : ℤ) : List ℤ :=
  if 0 < step then pyRangeGo (stop - start).toNat start stop step else []

/-- Python `int()` applied to a non-negative or negative rational:
truncation toward zero, i.e. `q.num tdiv q.den`. -/
def pyInt (q : ℚ) : ℤ :=
  Int.tdiv q.num q.den

/-- Decimal digits of a natural number, as Python's `str` would print it. -/
def natToChars (n : ℕ) : List Char :=
  Nat.toDigits 10 n

/-- Python `str` of an integer. -/
def intToChars (i : ℤ) : List Char :=
  if i < 0 then '-' :: natToChars i.natAbs else natToChars i.natAbs

/-- Zero-padding to two digits, as `"%02d"` does for values below 100. -/
def pad2 (n : ℕ) : List Char :=
  if n < 10 then '0' :: natToChars n else natToChars n

/-- Zero-padding to six digits, as `"%06d"` does for values below 10^6. -/
def pad6 (n : ℕ) : List Char :=
  List.replicate (6 - (natToChars n).length) '0' ++ natToChars n

/-- Floor of a rational as an integer, computed from the normalised
numerator and denominator with floor division. -/
def ratFloorZ (q : ℚ) : ℤ :=
  Int.fdiv q.num q.den

/-- Rounding to the nearest integer with ties to even, as CPython's
`datetime.timedelta` does when converting float seconds to microseconds. -/
def roundHalfEven (q : ℚ) : ℤ :=
  let f := ratFloorZ q
  if q - f < 1 / 2 then f
  else if 1 / 2 < q - f then f + 1
  else if f % 2 = 0 then f else f + 1

/-- Total signed microseconds stored by `datetime.timedelta(seconds = q)`. -/
def timedeltaTotalUsec (q : ℚ) : ℤ :=
  roundHalfEven (q * 1000000)

/-- Python `str(datetime.timedelta(...))` on a timedelta holding `total`
microseconds: the timedelta is normalised to `days` plus a remainder in
`[0, 86400*10^6)`; hours are printed unpadded (`"%d"`), minutes and
seconds zero-padded to two digits, a `"{d} day(s), "` prefix appears when
`days ≠ 0`, and a `".%06d"` microsecond suffix appears when it is
non-zero. -/
def strTimedeltaUsec (total : ℤ) : List Char :=
  let day := Int.fdiv total 86400000000
  let rem := (Int.fmod total 86400000000).toNat
  let usec := rem % 1000000
  let secs := rem / 1000000
  let hh := secs / 3600
  let mm := secs % 3600 / 60
  let ss := secs % 60
  let core := natToChars hh ++ ':' :: pad2 mm ++ ':' :: pad2 ss
  let withDays :=
    if day = 0 then core
    else intToChars day ++
      (if day = 1 ∨ day = -1 then " day, ".toList else " days, ".toList) ++ core
  if usec = 0 then withDays else withDays ++ '.' :: pad6 usec

/-- Python `str(datetime.timedelta(seconds = q))`. -/
def strTimedelta (q : ℚ) : List Char :=
  strTimedeltaUsec (timedeltaTotalUsec q)

/-- Line 13-16 of `transcribe_whisper.py`:
`str(datetime.timedelta(seconds=seconds)).replace(".", ",")[:11]`.
Replacing the single-character pattern `"."` is a character map. -/
def format_timestamp (seconds : ℚ) : List Char :=
  ((strTimedelta seconds).map fun c => if c = '.' then ',' else c).take 11

/-- Python `str.strip()`: remove leading and trailing whitespace. -/
def pyStrip (s : List Char) : List Char :=
  ((s.dropWhile Char.isWhitespace).reverse.dropWhile Char.isWhitespace).reverse

/-! ## Unfolding equation and structural lemmas for `pyRange` -/

lemma pyRangeGo_congr {step : ℤ} (hs : 0 < step) :
    ∀ (f g : ℕ) (a b : ℤ), (b - a).toNat ≤ f → (b - a).toNat ≤ g →
      pyRangeGo f a b step = pyRangeGo g a b step := by
  intro f
  induction f with
  | zero =>
    intro g a b hf hg
    cases g with
    | zero => rfl
    | succ g =>
      have hab : ¬ a < b := by omega
      simp [pyRangeGo, hab]
  | succ f ih =>
    intro g a b hf hg
    cases g with
    | zero =>
      have hab : ¬ a < b := by omega
      simp [pyRangeGo, hab]
    | succ g =>
      by_cases hab : a < b
      · simp only [pyRangeGo, hab, if_true]
        exact congrArg _ (ih g (a + step) b (by omega) (by omega))
      · simp [pyRangeGo, hab]

/-- Characteristic unfolding of `pyRange`, matching Python's iteration:
produce `start` and continue from `start + step` while `start < stop`. -/
lemma pyRange_eq (a b s : ℤ) :
    pyRange a b s = if 0 < s ∧ a < b then a :: pyRange (a + s) b s else [] := by
  by_cases hs : 0 < s
  · by_cases hab : a < b
    · simp only [pyRange, hs, hab, and_true, if_true]
      have h1 : (b - a).toNat = ((b - a).toNat - 1) + 1 := by omega
      rw [h1]
      simp only [pyRangeGo, hab, if_true]
      exact congrArg _ (pyRangeGo_congr hs _ _ (a + s) b (by omega) (by omega))
    · simp only [pyRange, hs, hab, and_false, if_false, if_true]
      cases h : (b - a).toNat with
      | zero => rfl
      | succ k => simp [pyRangeGo, hab]
  · simp [pyRange, hs]

lemma pyRange_mem_bounds {s : ℤ} (hs : 0 < s) (b : ℤ) :
    ∀ (a x : ℤ), x ∈ pyRange a b s → a ≤ x ∧ x < b := by
  have H : ∀ (k : ℕ) (a : ℤ), (b - a).toNat ≤ k →
      ∀ x ∈ pyRange a b s, a ≤ x ∧ x < b := by
    intro k
    induction k with
    | zero =>
      intro a hk x hx
      rw [pyRange_eq] at hx
      have hab : ¬ a < b := by omega
      simp [hab] at hx
    | succ k ih =>
      intro a hk x hx
      rw [pyRange_eq] at hx
      by_cases hab : a < b
      · simp only [hs, hab, and_true, if_true, List.mem_cons] at hx
        rcases hx with rfl | hx
        · exact ⟨le_refl x, hab⟩
        · have := ih (a + s) (by omega) x hx
          omega
      · simp [hab] at hx
  intro a
  exact H (b - a).toNat a (le_refl _)

lemma pyRange_pairwise {s : ℤ} (hs : 0 < s) (b : ℤ) :
    ∀ a : ℤ, (pyRange a b s).Pairwise fun x y => x + s ≤ y := by
  have H : ∀ (k : ℕ) (a : ℤ), (b - a).toNat ≤ k →
      (pyRange a b s).Pairwise fun x y => x + s ≤ y := by
    intro k
    induction k with
    | zero =>
      intro a hk
      rw [pyRange_eq]
      have hab : ¬ a < b := by omega
      simp [hab]
    | succ k ih =>
      intro a hk
      rw [pyRange_eq]
      by_cases hab : a < b
      · simp only [hs, hab, and_true, if_true, List.pairwise_cons]
        refine ⟨fun y hy => (pyRange_mem_bounds hs b (a + s) y hy).1, ?_⟩
        exact ih (a + s) (by omega)
      · simp [hab]
  intro a
  exact H (b - a).toNat a (le_refl _)

lemma pyRange_cover {s : ℤ} (hs : 0 < s) (b : ℤ) :
    ∀ (a : ℤ) (t : ℚ), (a : ℚ) ≤ t → t < (b : ℚ) →
      ∃ x ∈ pyRange a b s, (x : ℚ) ≤ t ∧ t < (x : ℚ) + (s : ℚ) := by
  have H : ∀ (k : ℕ) (a : ℤ), (b - a).toNat ≤ k → ∀ t : ℚ, (a : ℚ) ≤ t → t < (b : ℚ) →
      ∃ x ∈ pyRange a b s, (x : ℚ) ≤ t ∧ t < (x : ℚ) + (s : ℚ) := by
    intro k
    induction k with
    | zero =>
      intro a hk t hat htb
      exfalso
      have hab : a < b := by exact_mod_cast lt_of_le_of_lt hat htb
      omega
    | succ k ih =>
      intro a hk t hat htb
      have hab : a < b := by exact_mod_cast lt_of_le_of_lt hat htb
      by_cases hts : t < (a : ℚ) + (s : ℚ)
      · refine ⟨a, ?_, hat, hts⟩
        rw [pyRange_eq]
        simp [hs, hab]
      · push_neg at hts
        have hcast : ((a + s : ℤ) : ℚ) ≤ t := by push_cast; exact hts
        obtain ⟨x, hx, hxt⟩ := ih (a + s) (by omega) t hcast htb
        refine ⟨x, ?_, hxt⟩
        rw [pyRange_eq]
        simp only [hs, hab, and_true, if_true, List.mem_cons]
        exact Or.inr hx
  intro a
  exact H (b - a).toNat a (le_refl _)

lemma pyRange_getLast {s : ℤ} (hs : 0 < s) (b : ℤ) :
    ∀ a : ℤ, a < b →
      ∃ x, (pyRange a b s).getLast? = some x ∧ b ≤ x + s ∧ a ≤ x ∧ x < b := by
  have H : ∀ (k : ℕ) (a : ℤ), (b - a).toNat ≤ k → a < b →
      ∃ x, (pyRange a b s).getLast? = some x ∧ b ≤ x + s ∧ a ≤ x ∧ x < b := by
    intro k
    induction k with
    | zero =>
      intro a hk hab
      omega
    | succ k ih =>
      intro a hk hab
      rw [pyRange_eq]
      simp only [hs, hab, and_true, if_true]
      by_cases hnext : a + s < b
      · obtain ⟨x, hlast, hbx, hax, hxb⟩ := ih (a + s) (by omega) hnext
        cases htail : pyRange (a + s) b s with
        | nil => rw [htail] at hlast; simp at hlast
        | cons y l =>
          rw [htail] at hlast
          refine ⟨x, ?_, hbx, by omega, hxb⟩
          rw [List.getLast?_cons_cons]
          exact hlast
      · have htail : pyRange (a + s) b s = [] := by
          rw [pyRange_eq]
          simp [hnext]
        rw [htail]
        exact ⟨a, rfl, by omega, le_refl a, hab⟩
  intro a hab
  exact H (b - a).toNat a (le_refl _) hab

/-- Python `int()` of a natural number read back as a rational is the
number itself. -/
lemma pyInt_natCast (n : ℕ) : pyInt (n : ℚ) = n := by
  simp only [pyInt, Rat.num_natCast, Rat.den_natCast]
  rw [Int.tdiv_eq_ediv (by exact_mod_cast Nat.zero_le n) (by norm_num)]
  simp

/-- For non-negative rationals, Python `int()` agrees with the floor. -/
lemma pyInt_eq_floor (q : ℚ) (hq : 0 ≤ q) : pyInt q = ⌊q⌋ := by
  have hnum : 0 ≤ q.num := Rat.num_nonneg.mpr hq
  rw [pyInt, Int.tdiv_eq_ediv hnum (by exact_mod_cast Nat.zero_le q.den), Rat.floor_def]

/-! ## Data model of the segmented transcription pipeline -/

/-- One recognized utterance returned by the Whisper engine for one
window (or for the whole file): `segment["start"]`, `segment["end"]`,
`segment["text"]` in `transcribe_whisper.py`. -/
structure RawSegment where
  start : ℚ
  stop : ℚ
  text : List Char
deriving DecidableEq

/-- One subtitle cue as written to the SRT file: index line, timestamp
line and stripped text (lines 126-128 and 91-93 of
`transcribe_whisper.py`). -/
structure Cue where
  index : ℕ
  start : ℚ
  stop : ℚ
  text : List Char
deriving DecidableEq

/-- Outcome of one window of the per-window loop (lines 110-137),
abstracting the two external collaborators:
* `extractFail`: `extract_segment` returned `False` (the `continue`
  branch); `leftFile` records whether pydub's failed export left the
  temporary file on disk, which the code does not control.
* `engineFail`: `model.transcribe` raised; caught by the window-level
  `except`.
* `interrupted`: the engine returned `segs` but an exception struck the
  cue-writing loop after `k` complete cues; caught by the window-level
  `except`.
* `ok`: the engine returned `segs` and every cue was written. -/
inductive WindowOutcome where
  | extractFail (leftFile : Bool)
  | engineFail
  | interrupted (segs : List RawSegment) (k : ℕ)
  | ok (segs : List RawSegment)

/-- State threaded through the per-window loop: the set of files on disk
(only temporary chunk files are tracked), the cues written to the SRT
file so far, and the Python variable `subtitle_index`. -/
structure JobState where
  fs : List (List Char)
  cues : List Cue
  idx : ℕ

/-- Opaque model of Python float formatting, used only inside temporary
file names; no theorem depends on its exact text. -/
def ratToChars (q : ℚ) : List Char :=
  intToChars q.num ++ '/' :: natToChars q.den

/-- Line 108: `f"temp_segment_{segment_start}_{segment_end}.wav"`. -/
def tempName (segment_start : ℤ) (segment_end : ℚ) : List Char :=
  "temp_segment_".toList ++ intToChars segment_start ++ '_' :: ratToChars segment_end
    ++ ".wav".toList

/-- Lines 120-130: write one cue per raw segment, in engine order, with
timestamps offset by the window start, the text stripped, and
`subtitle_index` incremented once per written cue.  Returns the cues in
file order together with the final value of `subtitle_index`. -/
def mkCues (wstart : ℚ) : ℕ → List RawSegment → List Cue × ℕ
  | idx, [] => ([], idx)
  | idx, seg :: rest =>
    let tail := mkCues wstart (idx + 1) rest
    (⟨idx, wstart + seg.start, wstart + seg.stop, pyStrip seg.text⟩ :: tail.1, tail.2)

/-- Lines 104-137: one iteration of the per-window loop.  The temporary
chunk name is derived from the window bounds; the `try/except/finally`
shape means cues are only appended on (possibly partial) engine success,
`subtitle_index` survives untouched on skip, and the `finally` block
removes the temporary file when it exists on every exit path. -/
def runWindow (duration : ℚ) (segment_length : ℤ) (st : JobState) (segment_start : ℤ)
    (o : WindowOutcome) : JobState :=
  let segment_end := min ((segment_start : ℚ) + (segment_length : ℚ)) duration
  let name := tempName segment_start segment_end
  match o with
  | .extractFail leftFile =>
    let afterTry := if leftFile then name :: st.fs else st.fs
    { st with fs := afterTry.filter (· ≠ name) }
  | .engineFail =>
    { st with fs := (name :: st.fs).filter (· ≠ name) }
  | .interrupted segs k =>
    let written := mkCues segment_start st.idx (segs.take k)
    { fs := (name :: st.fs).filter (· ≠ name),
      cues := st.cues ++ written.1, idx := written.2 }
  | .ok segs =>
    let written := mkCues segment_start st.idx segs
    { fs := (name :: st.fs).filter (· ≠ name),
      cues := st.cues ++ written.1, idx := written.2 }

/-- Lines 100-137: the whole segmented loop.  `env i` is the outcome of
the `i`-th window; the loop walks `range(0, int(duration),
segment_length)` in order, starting from `subtitle_index = 1` and an
initial file-system state `fs0`. -/
def runJob (duration : ℚ) (segment_length : ℤ) (env : ℕ → WindowOutcome)
    (fs0 : List (List Char)) : JobState :=
  ((pyRange 0 (pyInt duration) segment_length).enum).foldl
    (fun st p => runWindow duration segment_length st p.2 (env p.1))
    ⟨fs0, [], 1⟩

/-- Cues produced by the segmented path, starting from an empty disk. -/
def transcribeSegmented (duration : ℚ) (segment_length : ℤ)
    (env : ℕ → WindowOutcome) : List Cue :=
  (runJob duration segment_length env []).cues

/-- Lines 104-105: the half-open window starting at `segment_start`,
with `segment_end = min(segment_start + segment_length, duration)`. -/
def mkWindow (duration : ℚ) (segment_length : ℤ) (segment_start : ℤ) : ℚ × ℚ :=
  ((segment_start : ℚ), min ((segment_start : ℚ) + (segment_length : ℚ)) duration)

/-- Lines 104-105: the windows of the loop iterations, in order. -/
def windows (duration : ℚ) (segment_length : ℤ) : List (ℚ × ℚ) :=
  (pyRange 0 (pyInt duration) segment_length).map (mkWindow duration segment_length)

/-- Lines 88-93: the whole-file fallback writes one cue per returned
segment, `enumerate(result["segments"], 1)`, with the engine's own
offsets and no window adjustment. -/
def fallbackCues (segs : List RawSegment) : List Cue :=
  segs.enum.map fun p => ⟨p.1 + 1, p.2.start, p.2.stop, pyStrip p.2.text⟩

/-- Lines 80-145: `transcribe_audio`, abstracted over the collaborators.
`probe` is the duration probe's result (`none` models
`get_audio_duration` raising); `wholeSegs` is what the engine returns on
the whole file in the fallback; `env` gives the per-window outcomes; the
returned value is Python's return value (the output path) paired with the
cues written, or the uncaught exception.  `range` with a zero step raises
`ValueError`, which no handler catches. -/
def transcribe_audio (probe : Option ℚ) (segment_length : ℤ)
    (wholeSegs : List RawSegment) (env : ℕ → WindowOutcome)
    (output_path : List Char) : Except String (List Char × List Cue) :=
  match probe with
  | none => .ok (output_path, fallbackCues wholeSegs)
  | some duration =>
    if segment_length = 0 then .error "ValueError: range() arg 3 must not be zero"
    else .ok (output_path, transcribeSegmented duration segment_length env)

/-- Lines 91-93 and 126-128: the SRT block of one cue. -/
def writeCueBlock (c : Cue) : List Char :=
  natToChars c.index ++ '\n' :: format_timestamp c.start ++ " --> ".toList
    ++ format_timestamp c.stop ++ '\n' :: c.text ++ "\n\n".toList

/-- Content of the output SRT file: the cue blocks in file order. -/
def renderSrt (cs : List Cue) : List Char :=
  (cs.map writeCueBlock).foldr (· ++ ·) []

/-- Lines 37-49: `extract_segment`.  `body` is the outcome of the pydub
decode/slice/resample/export sequence inside the `try`; the function
returns `True` on success and `False` on any caught exception, and never
re-raises. -/
def extract_segment (body : Except String Unit) : Except String Bool :=
  .ok (match body with | .ok _ => true | .error _ => false)

/-- Lines 28-34 of `generate_srt.py`: the caller's output path,
`os.path.join(dir, f"{base_name}.srt")`. -/
def srtPath (dir base : List Char) : List Char :=
  dir ++ '/' :: base ++ ".srt".toList

/-- Python truthiness of a string: non-empty. -/
def pyTruthy (s : List Char) : Bool :=
  !s.isEmpty

/-! ## Lemmas about cue construction and the window loop -/

lemma mkCues_snd (w : ℚ) : ∀ (l : List RawSegment) (i : ℕ),
    (mkCues w i l).2 = i + l.length := by
  intro l
  induction l with
  | nil => intro i; simp [mkCues]
  | cons seg rest ih =>
    intro i
    simp only [mkCues, ih (i + 1), List.length_cons]
    omega

lemma mkCues_map_index (w : ℚ) : ∀ (l : List RawSegment) (i : ℕ),
    (mkCues w i l).1.map Cue.index = List.range' i l.length := by
  intro l
  induction l with
  | nil => intro i; simp [mkCues]
  | cons seg rest ih =>
    intro i
    simp only [mkCues, List.map_cons, List.length_cons, List.range'_succ]
    exact congrArg _ (ih (i + 1))

lemma mkCues_map_start (w : ℚ) : ∀ (l : List RawSegment) (i : ℕ),
    (mkCues w i l).1.map Cue.start = l.map fun s => w + s.start := by
  intro l
  induction l with
  | nil => intro i; simp [mkCues]
  | cons seg rest ih =>
    intro i
    simp only [mkCues, List.map_cons]
    exact congrArg _ (ih (i + 1))

lemma mkCues_map_stop (w : ℚ) : ∀ (l : List RawSegment) (i : ℕ),
    (mkCues w i l).1.map Cue.stop = l.map fun s => w + s.stop := by
  intro l
  induction l with
  | nil => intro i; simp [mkCues]
  | cons seg rest ih =>
    intro i
    simp only [mkCues, List.map_cons]
    exact congrArg _ (ih (i + 1))

/-- Index bookkeeping invariant of one window: if the cues so far are
numbered `1..n` and `subtitle_index = n + 1`, the same holds after the
window, whatever its outcome. -/
lemma runWindow_index_inv (duration : ℚ) (segment_length : ℤ) (st : JobState)
    (ws : ℤ) (o : WindowOutcome)
    (h1 : st.cues.map Cue.index = List.range' 1 st.cues.length)
    (h2 : st.idx = st.cues.length + 1) :
    (runWindow duration segment_length st ws o).cues.map Cue.index
        = List.range' 1 (runWindow duration segment_length st ws o).cues.length
      ∧ (runWindow duration segment_length st ws o).idx
        = (runWindow duration segment_length st ws o).cues.length + 1 := by
  have key : ∀ segs : List RawSegment,
      (st.cues ++ (mkCues (ws : ℚ) st.idx segs).1).map Cue.index
          = List.range' 1 (st.cues ++ (mkCues (ws : ℚ) st.idx segs).1).length
        ∧ (mkCues (ws : ℚ) st.idx segs).2
          = (st.cues ++ (mkCues (ws : ℚ) st.idx segs).1).length + 1 := by
    intro segs
    have hlen : (mkCues (ws : ℚ) st.idx segs).1.length = segs.length := by
      have := congrArg List.length (mkCues_map_index (ws : ℚ) segs st.idx)
      simpa using this
    constructor
    · rw [List.map_append, h1, mkCues_map_index, List.length_append, hlen, h2]
      have h := List.range'_append 1 st.cues.length segs.length 1
      simp only [one_mul] at h
      simpa [Nat.add_comm] using h
    · rw [mkCues_snd, List.length_append, hlen, h2]
      omega
  cases o with
  | extractFail leftFile => exact ⟨h1, h2⟩
  | engineFail => exact ⟨h1, h2⟩
  | interrupted segs k => exact key (segs.take k)
  | ok segs => exact key segs

lemma runJob_foldl_index_inv (duration : ℚ) (segment_length : ℤ)
    (env : ℕ → WindowOutcome) :
    ∀ (l : List (ℕ × ℤ)) (st : JobState),
      st.cues.map Cue.index = List.range' 1 st.cues.length →
      st.idx = st.cues.length + 1 →
      (l.foldl (fun st p => runWindow duration segment_length st p.2 (env p.1))
          st).cues.map Cue.index
        = List.range' 1
            (l.foldl (fun st p => runWindow duration segment_length st p.2 (env p.1))
              st).cues.length := by
  intro l
  induction l with
  | nil => intro st h1 _; exact h1
  | cons p rest ih =>
    intro st h1 h2
    simp only [List.foldl_cons]
    obtain ⟨g1, g2⟩ := runWindow_index_inv duration segment_length st p.2 (env p.1) h1 h2
    exact ih _ g1 g2

/-- Claim C1.  In the segmented transcription path, the cue indices
written to the output file are exactly `1..N`, contiguous and strictly
increasing in file order, for every sequence of window outcomes: the
counter starts at 1, a skipped window consumes no index and emits no
cue, and cues already written are never rolled back. -/
theorem c1_cue_indices_contiguous (duration : ℚ) (segment_length : ℤ)
    (env : ℕ → WindowOutcome) :
    (transcribeSegmented duration segment_length env).map Cue.index
        = List.range' 1 (transcribeSegmented duration segment_length env).length
      ∧ (∀ (st : JobState) (ws : ℤ) (b : Bool),
          (runWindow duration segment_length st ws (.extractFail b)).idx = st.idx
            ∧ (runWindow duration segment_length st ws (.extractFail b)).cues = st.cues)
      ∧ (∀ (st : JobState) (ws : ℤ) (o : WindowOutcome),
          ((runWindow duration segment_length st ws o).cues).take st.cues.length
            = st.cues) := by
  refine ⟨?_, fun st ws b => ⟨rfl, rfl⟩, ?_⟩
  · exact runJob_foldl_index_inv duration segment_length env _ _ (by simp) (by simp)
  · intro st ws o
    cases o with
    | extractFail leftFile => exact List.take_length st.cues
    | engineFail => exact List.take_length st.cues
    | interrupted segs k => exact List.take_left st.cues _
    | ok segs => exact List.take_left st.cues _

/-! ## Window tiling (claim C2) -/

/-- Claim C2, counterexample.  For duration `D = 30.5` and window length
`W = 30` the loop head `range(0, int(duration), segment_length)`
truncates the duration to 30, so the only window generated is `[0, 30)`:
the point `30 ∈ [0, D)` is covered by no window and the last window's
end is `30 ≠ D`, refuting exact tiling of `[0, D)` for every `D`. -/
theorem c2_tiling_counterexample :
    windows (61 / 2 : ℚ) 30 = [((0 : ℚ), (30 : ℚ))]
      ∧ (30 : ℚ) < 61 / 2
      ∧ ¬ (∃ w ∈ windows (61 / 2 : ℚ) 30, w.1 ≤ (30 : ℚ) ∧ (30 : ℚ) < w.2)
      ∧ ∀ w, (windows (61 / 2 : ℚ) 30).getLast? = some w → w.2 ≠ 61 / 2 := by
  have hp : pyInt (61 / 2 : ℚ) = 30 := by
    rw [pyInt_eq_floor _ (by norm_num)]
    norm_num
  have hr : pyRange 0 30 30 = [0] := by decide
  have hw : windows (61 / 2 : ℚ) 30 = [((0 : ℚ), (30 : ℚ))] := by
    rw [windows, hp, hr]
    simp only [List.map_cons, List.map_nil, mkWindow, Int.cast_zero]
    norm_num
  refine ⟨hw, by norm_num, ?_, ?_⟩
  · rw [hw]
    simp only [List.mem_singleton]
    rintro ⟨w, rfl, -, h⟩
    exact absurd h (by norm_num)
  · intro w h
    rw [hw] at h
    simp only [List.getLast?_singleton, Option.some.injEq] at h
    rw [← h]
    norm_num

/-- Claim C2, amended.  The stride stops at `int(duration)`, so exact
tiling holds for integer durations: for every `n : ℕ` and `W > 0` the
windows cover every point of `[0, n)`, are pairwise disjoint in order,
stay inside `[0, n)` with positive width, and the last window (present
whenever `n > 0`) ends exactly at `n`.  (For fractional durations whose
floor is a multiple of `W`, the tail `[⌊D⌋, D)` is uncovered, as the
counterexample shows.) -/
theorem c2_windows_tile_integer_duration (n : ℕ) (W : ℤ) (hW : 0 < W) :
    (∀ t : ℚ, 0 ≤ t → t < (n : ℚ) →
        ∃ w ∈ windows (n : ℚ) W, w.1 ≤ t ∧ t < w.2)
      ∧ (windows (n : ℚ) W).Pairwise (fun w w' => w.2 ≤ w'.1)
      ∧ (∀ w ∈ windows (n : ℚ) W, 0 ≤ w.1 ∧ w.1 < w.2 ∧ w.2 ≤ (n : ℚ))
      ∧ (0 < n → ∃ w, (windows (n : ℚ) W).getLast? = some w ∧ w.2 = (n : ℚ)) := by
  have hb : pyInt (n : ℚ) = (n : ℤ) := pyInt_natCast n
  have hcast : (((n : ℤ) : ℚ)) = (n : ℚ) := by push_cast; rfl
  refine ⟨?_, ?_, ?_, ?_⟩
  · intro t ht htn
    obtain ⟨x, hx, hxt, htx⟩ := pyRange_cover hW (n : ℤ) 0 t (by exact_mod_cast ht)
      (by rw [hcast]; exact htn)
    refine ⟨mkWindow (n : ℚ) W x, ?_, hxt, ?_⟩
    · rw [windows, hb]
      exact List.mem_map_of_mem _ hx
    · exact lt_min htx htn
  · rw [windows, hb]
    refine List.Pairwise.map _ ?_ (pyRange_pairwise hW (n : ℤ) 0)
    intro x y hxy
    refine le_trans (min_le_left _ _) ?_
    show ((x : ℚ) + (W : ℚ)) ≤ (y : ℚ)
    have : ((x + W : ℤ) : ℚ) ≤ ((y : ℤ) : ℚ) := by exact_mod_cast hxy
    push_cast at this
    exact this
  · intro w hw
    rw [windows, hb] at hw
    obtain ⟨x, hx, rfl⟩ := List.mem_map.mp hw
    obtain ⟨hx0, hxn⟩ := pyRange_mem_bounds hW (n : ℤ) 0 x hx
    simp only [mkWindow]
    refine ⟨by exact_mod_cast hx0, lt_min (by linarith [show (0 : ℚ) < (W : ℚ) by exact_mod_cast hW]) ?_, min_le_right _ _⟩
    exact_mod_cast hxn
  · intro hn
    obtain ⟨x, hlast, hbx, hx0, hxn⟩ := pyRange_getLast hW (n : ℤ) 0 (by exact_mod_cast hn)
    refine ⟨mkWindow (n : ℚ) W x, ?_, ?_⟩
    · rw [windows, hb]
      rw [List.getLast?_map, hlast, Option.map_some']
    · refine min_eq_right ?_
      have : (((n : ℤ)) : ℚ) ≤ ((x + W : ℤ) : ℚ) := by exact_mod_cast hbx
      push_cast at this
      linarith

/-- Witness for the amended claim C2 at `n = 65`, `W = 30`: the point
`t = 40` is covered and the window list is pairwise disjoint. -/
theorem c2_windows_tile_integer_duration_witness :
    (∃ w ∈ windows (65 : ℚ) 30, w.1 ≤ (40 : ℚ) ∧ (40 : ℚ) < w.2)
      ∧ (windows (65 : ℚ) 30).Pairwise (fun w w' => w.2 ≤ w'.1) := by
  have h := c2_windows_tile_integer_duration 65 30 (by norm_num)
  exact ⟨by
    have h1 := h.1 40 (by norm_num) (by exact_mod_cast (by norm_num : (40 : ℚ) < 65))
    exact_mod_cast h1, by
    have h2 := h.2.1
    exact_mod_cast h2⟩

/-! ## Absolute timestamps (claim C3) -/

/-- Claim C3.  Every cue written for a window carries
`absolute = window.start + relative` for both endpoints, with no
clamping to the global duration; in particular, for duration 65 and
window length 30, a fake engine returning one segment `(5, 10, "hi")`
per window yields cues at `(5,10)`, `(35,40)`, `(65,70)` with indices
1, 2, 3 — the last cue ending past the 65-second duration. -/
theorem c3_absolute_offsets (wstart : ℚ) (idx : ℕ) (segs : List RawSegment) :
    ((mkCues wstart idx segs).1.map Cue.start = segs.map fun s => wstart + s.start)
      ∧ ((mkCues wstart idx segs).1.map Cue.stop = segs.map fun s => wstart + s.stop)
      ∧ transcribeSegmented 65 30 (fun _ => .ok [⟨5, 10, "hi".toList⟩])
        = [⟨1, 5, 10, "hi".toList⟩, ⟨2, 35, 40, "hi".toList⟩,
            ⟨3, 65, 70, "hi".toList⟩] := by
  refine ⟨mkCues_map_start wstart segs idx, mkCues_map_stop wstart segs idx, ?_⟩
  have hp : pyInt (65 : ℚ) = 65 := by
    rw [pyInt_eq_floor _ (by norm_num)]
    norm_num
  have hr : pyRange 0 65 30 = [0, 30, 60] := by decide
  have hstrip : pyStrip "hi".toList = "hi".toList := by decide
  simp only [transcribeSegmented, runJob, hp, hr, List.enum, List.enumFrom,
    List.foldl_cons, List.foldl_nil, runWindow, mkCues, hstrip]
  norm_num

/-! ## Whole-file fallback (claim C4) -/

lemma enumFrom_fallback_maps (l : List RawSegment) : ∀ n : ℕ,
    (((List.enumFrom n l).map fun p =>
          (⟨p.1 + 1, p.2.start, p.2.stop, pyStrip p.2.text⟩ : Cue)).map Cue.index
        = List.range' (n + 1) l.length)
      ∧ (((List.enumFrom n l).map fun p =>
          (⟨p.1 + 1, p.2.start, p.2.stop, pyStrip p.2.text⟩ : Cue)).map Cue.start
        = l.map RawSegment.start)
      ∧ (((List.enumFrom n l).map fun p =>
          (⟨p.1 + 1, p.2.start, p.2.stop, pyStrip p.2.text⟩ : Cue)).map Cue.stop
        = l.map RawSegment.stop) := by
  induction l with
  | nil => intro n; simp
  | cons seg rest ih =>
    intro n
    obtain ⟨h1, h2, h3⟩ := ih (n + 1)
    refine ⟨?_, ?_, ?_⟩
    · simp only [List.enumFrom, List.map_cons, List.length_cons, List.range'_succ]
      exact congrArg _ h1
    · simp only [List.enumFrom, List.map_cons]
      exact congrArg _ h2
    · simp only [List.enumFrom, List.map_cons]
      exact congrArg _ h3

/-- Claim C4.  On duration-probe failure, `transcribe_audio` takes the
whole-file fallback: the result is the output path together with one cue
per engine segment, indices `1..N` in engine order, timestamps equal to
the engine's own offsets with no window offset added, independent of the
window environment (no window is ever processed). -/
theorem c4_whole_file_fallback (segment_length : ℤ) (wholeSegs : List RawSegment)
    (env : ℕ → WindowOutcome) (output_path : List Char) :
    transcribe_audio none segment_length wholeSegs env output_path
        = .ok (output_path, fallbackCues wholeSegs)
      ∧ (fallbackCues wholeSegs).map Cue.index = List.range' 1 wholeSegs.length
      ∧ (fallbackCues wholeSegs).map Cue.start = wholeSegs.map RawSegment.start
      ∧ (fallbackCues wholeSegs).map Cue.stop = wholeSegs.map RawSegment.stop := by
  obtain ⟨h1, h2, h3⟩ := enumFrom_fallback_maps wholeSegs 0
  exact ⟨rfl, h1, h2, h3⟩

/-! ## Per-window failure recovery (claim C5) -/

lemma runJob_foldl_all_skip (duration : ℚ) (segment_length : ℤ)
    (env : ℕ → WindowOutcome) :
    ∀ (l : List (ℕ × ℤ)) (st : JobState), (∀ p ∈ l, ∃ b, env p.1 = .extractFail b) →
      (l.foldl (fun st p => runWindow duration segment_length st p.2 (env p.1))
          st).cues = st.cues
        ∧ (l.foldl (fun st p => runWindow duration segment_length st p.2 (env p.1))
            st).idx = st.idx := by
  intro l
  induction l with
  | nil => intro st _; exact ⟨rfl, rfl⟩
  | cons p rest ih =>
    intro st hall
    obtain ⟨b, hb⟩ := hall p (List.mem_cons_self p rest)
    simp only [List.foldl_cons]
    obtain ⟨h1, h2⟩ := ih (runWindow duration segment_length st p.2 (env p.1))
      fun q hq => hall q (List.mem_cons_of_mem p hq)
    rw [h1, h2, hb]
    exact ⟨rfl, rfl⟩

/-- Claim C5.  A failed extraction is recovered locally: the window is
skipped, emitting no cue and consuming no index, and processing
continues; if every window fails extraction the job still succeeds,
returning the output path with an empty cue list, which renders as an
empty (syntactically valid) subtitle file. -/
theorem c5_all_windows_skipped (duration : ℚ) (segment_length : ℤ)
    (wholeSegs : List RawSegment) (output_path : List Char)
    (env : ℕ → WindowOutcome) (hW : segment_length ≠ 0)
    (hall : ∀ i, ∃ b, env i = .extractFail b) :
    transcribe_audio (some duration) segment_length wholeSegs env output_path
        = .ok (output_path, [])
      ∧ renderSrt [] = []
      ∧ (∀ (st : JobState) (ws : ℤ) (b : Bool),
          (runWindow duration segment_length st ws (.extractFail b)).cues = st.cues
            ∧ (runWindow duration segment_length st ws (.extractFail b)).idx
              = st.idx)
      ∧ (∀ (st : JobState) (ws : ℤ),
          (runWindow duration segment_length st ws .engineFail).cues = st.cues
            ∧ (runWindow duration segment_length st ws .engineFail).idx
              = st.idx) := by
  refine ⟨?_, rfl, fun st ws b => ⟨rfl, rfl⟩, fun st ws => ⟨rfl, rfl⟩⟩
  have h := runJob_foldl_all_skip duration segment_length env
    ((pyRange 0 (pyInt duration) segment_length).enum) ⟨[], [], 1⟩
    (fun p _ => hall p.1)
  simp only [transcribe_audio, hW, if_false]
  have : transcribeSegmented duration segment_length env = [] := h.1
  rw [this]

/-- Witness for claim C5 at duration 65, window length 30, every window
failing extraction. -/
theorem c5_all_windows_skipped_witness :
    transcribe_audio (some 65) 30 [] (fun _ => .extractFail false) "out.srt".toList
      = .ok ("out.srt".toList, []) :=
  (c5_all_windows_skipped 65 30 [] "out.srt".toList (fun _ => .extractFail false)
    (by norm_num) (fun _ => ⟨false, rfl⟩)).1

/-! ## Temporary chunk cleanup (claim C6) -/

lemma runWindow_fs_mem (duration : ℚ) (segment_length : ℤ) (st : JobState)
    (ws : ℤ) (o : WindowOutcome) (x : List Char)
    (hx : x ∈ (runWindow duration segment_length st ws o).fs) :
    x ∈ st.fs
      ∧ x ≠ tempName ws (min ((ws : ℚ) + (segment_length : ℚ)) duration) := by
  cases o with
  | extractFail leftFile =>
    cases leftFile with
    | false =>
      simp only [runWindow, List.mem_filter, decide_eq_true_eq] at hx
      exact hx
    | true =>
      simp only [runWindow, List.mem_filter, List.mem_cons, decide_eq_true_eq,
        eq_self_iff_true, if_true] at hx
      tauto
  | engineFail =>
    simp only [runWindow, List.mem_filter, List.mem_cons, decide_eq_true_eq] at hx
    tauto
  | interrupted segs k =>
    simp only [runWindow, List.mem_filter, List.mem_cons, decide_eq_true_eq] at hx
    tauto
  | ok segs =>
    simp only [runWindow, List.mem_filter, List.mem_cons, decide_eq_true_eq] at hx
    tauto

lemma runJob_foldl_fs_subset (duration : ℚ) (segment_length : ℤ)
    (env : ℕ → WindowOutcome) :
    ∀ (l : List (ℕ × ℤ)) (st : JobState),
      (l.foldl (fun st p => runWindow duration segment_length st p.2 (env p.1))
          st).fs ⊆ st.fs := by
  intro l
  induction l with
  | nil => intro st x hx; exact hx
  | cons p rest ih =>
    intro st x hx
    simp only [List.foldl_cons] at hx
    exact (runWindow_fs_mem duration segment_length st p.2 (env p.1) x (ih _ hx)).1

lemma runJob_foldl_fs_no_temp (duration : ℚ) (segment_length : ℤ)
    (env : ℕ → WindowOutcome) :
    ∀ (l : List (ℕ × ℤ)) (st : JobState) (p : ℕ × ℤ), p ∈ l →
      tempName p.2 (min ((p.2 : ℚ) + (segment_length : ℚ)) duration)
        ∉ (l.foldl (fun st p => runWindow duration segment_length st p.2 (env p.1))
            st).fs := by
  intro l
  induction l with
  | nil => intro st p hp; exact absurd hp (List.not_mem_nil p)
  | cons q rest ih =>
    intro st p hp hmem
    simp only [List.foldl_cons] at hmem
    rcases List.mem_cons.mp hp with rfl | hp
    · have hsub := runJob_foldl_fs_subset duration segment_length env rest
        (runWindow duration segment_length st p.2 (env p.1)) hmem
      exact (runWindow_fs_mem duration segment_length st p.2 (env p.1) _ hsub).2 rfl
    · exact ih _ p hp hmem

/-- Claim C6.  Whatever the mix of per-window outcomes, the file-system
state after the job contains no temporary chunk file: every window's
`temp_segment_{start}_{end}.wav` is absent from the final state, and the
final state is contained in the initial one (the loop only ever removes
files it created). -/
theorem c6_temp_chunks_cleaned (duration : ℚ) (segment_length : ℤ)
    (env : ℕ → WindowOutcome) (fs0 : List (List Char)) :
    ((runJob duration segment_length env fs0).fs ⊆ fs0)
      ∧ ∀ s ∈ pyRange 0 (pyInt duration) segment_length,
          tempName s (min ((s : ℚ) + (segment_length : ℚ)) duration)
            ∉ (runJob duration segment_length env fs0).fs := by
  constructor
  · exact runJob_foldl_fs_subset duration segment_length env _ _
  · intro s hs
    have hmem : ∃ i : ℕ, (i, s) ∈ (pyRange 0 (pyInt duration) segment_length).enum := by
      have H : ∀ (l : List ℤ) (n : ℕ), s ∈ l → ∃ i, (i, s) ∈ List.enumFrom n l := by
        intro l
        induction l with
        | nil => intro n h; exact absurd h (List.not_mem_nil s)
        | cons a as ih =>
          intro n h
          rcases List.mem_cons.mp h with rfl | h
          · exact ⟨n, List.mem_cons_self _ _⟩
          · obtain ⟨i, hi⟩ := ih (n + 1) h
            exact ⟨i, List.mem_cons_of_mem _ hi⟩
      exact H _ 0 hs
    obtain ⟨i, hi⟩ := hmem
    exact runJob_foldl_fs_no_temp duration segment_length env _ ⟨fs0, [], 1⟩ (i, s) hi

/-- Witness for claim C6: with duration 65, window length 30 and every
window succeeding with no segments, the first window's temporary chunk
file is not on disk after the job. -/
theorem c6_temp_chunks_cleaned_witness :
    tempName 0 (min (((0 : ℤ) : ℚ) + ((30 : ℤ) : ℚ)) 65)
      ∉ (runJob 65 30 (fun _ => .ok []) []).fs := by
  have h0 : (0 : ℤ) ∈ pyRange 0 (pyInt (65 : ℚ)) 30 := by
    have hp : pyInt (65 : ℚ) = 65 := by
      rw [pyInt_eq_floor _ (by norm_num)]
      norm_num
    rw [hp]
    decide
  exact (c6_temp_chunks_cleaned 65 30 (fun _ => .ok []) []).2 0 h0

/-! ## Timestamp formatting (claims C7 and C8) -/

lemma ratFloorZ_intCast (n : ℤ) : ratFloorZ (n : ℚ) = n := by
  simp only [ratFloorZ, Rat.num_intCast, Rat.den_intCast]
  exact_mod_cast Int.fdiv_one n

lemma roundHalfEven_intCast (n : ℤ) : roundHalfEven (n : ℚ) = n := by
  simp only [roundHalfEven, ratFloorZ_intCast]
  have h : (n : ℚ) - (n : ℚ) = 0 := by ring
  rw [h]
  norm_num

lemma timedeltaTotalUsec_eq (q : ℚ) (n : ℤ) (h : q * 1000000 = (n : ℚ)) :
    timedeltaTotalUsec q = n := by
  rw [timedeltaTotalUsec, h, roundHalfEven_intCast]

/-- Claim C7 concerns `format_timestamp`; this evaluates the code at the
claimed inputs.  Python's `str(timedelta)` prints hours unpadded and
omits the fractional part entirely when it is zero, so
`format_timestamp(0)` is `"0:00:00"` — not the claimed (and
docstring-promised) `"00:00:00,000"` — and `format_timestamp(3661.5)` is
`"1:01:01,500"`, not `"01:01:01,500"`. -/
theorem c7_format_timestamp_actual_output :
    format_timestamp 0 = "0:00:00".toList
      ∧ format_timestamp (7323 / 2 : ℚ) = "1:01:01,500".toList
      ∧ format_timestamp 0 ≠ "00:00:00,000".toList
      ∧ format_timestamp (7323 / 2 : ℚ) ≠ "01:01:01,500".toList := by
  have h0 : timedeltaTotalUsec 0 = 0 := by
    apply timedeltaTotalUsec_eq
    norm_num
  have h1 : timedeltaTotalUsec (7323 / 2 : ℚ) = 3661500000 := by
    apply timedeltaTotalUsec_eq
    norm_num
  have e0 : format_timestamp 0 = "0:00:00".toList := by
    simp only [format_timestamp, strTimedelta, h0]
    decide
  have e1 : format_timestamp (7323 / 2 : ℚ) = "1:01:01,500".toList := by
    simp only [format_timestamp, strTimedelta, h1]
    decide
  refine ⟨e0, e1, ?_, ?_⟩
  · rw [e0]; decide
  · rw [e1]; decide

/-- Claim C8, counterexample.  A negative seconds value does not fail
with `InvalidInput`: `format_timestamp(-5)` returns the first 11
characters of Python's negative-timedelta rendering, `"-1 day, 23:"`;
and a negative window length does not fail either: `transcribe_audio`
with `segment_length = -5` returns the output path with an empty cue
list (the `range` produces no iterations). -/
theorem c8_invalidinput_counterexample :
    format_timestamp (-5 : ℚ) = "-1 day, 23:".toList
      ∧ transcribe_audio (some 65) (-5) [] (fun _ => .ok []) "out.srt".toList
        = .ok ("out.srt".toList, []) := by
  constructor
  · have h : timedeltaTotalUsec (-5 : ℚ) = -5000000 := by
      apply timedeltaTotalUsec_eq
      norm_num
    simp only [format_timestamp, strTimedelta, h]
    decide
  · have hrange : pyRange 0 (pyInt (65 : ℚ)) (-5) = [] := by
      rw [pyRange]
      norm_num
    simp only [transcribe_audio, transcribeSegmented, runJob, hrange]
    norm_num [List.enum]

/-- Claim C8, amended.  The code performs no `InvalidInput` validation:
a negative seconds value is formatted via Python's negative-timedelta
rendering and returned as a string; a window length of zero makes
`transcribe_audio` raise Python's generic `ValueError` (from `range`);
and a negative window length makes it proceed and return the output path
with an empty cue list. -/
theorem c8_no_input_validation :
    format_timestamp (-5 : ℚ) = "-1 day, 23:".toList
      ∧ (∀ (d : ℚ) (segs : List RawSegment) (env : ℕ → WindowOutcome)
          (p : List Char), transcribe_audio (some d) 0 segs env p
            = .error "ValueError: range() arg 3 must not be zero")
      ∧ (∀ (d : ℚ) (W : ℤ) (segs : List RawSegment) (env : ℕ → WindowOutcome)
          (p : List Char), W < 0 →
            transcribe_audio (some d) W segs env p = .ok (p, [])) := by
  refine ⟨c8_invalidinput_counterexample.1, fun d segs env p => rfl, ?_⟩
  intro d W segs env p hW
  have hrange : pyRange 0 (pyInt d) W = [] := by
    rw [pyRange]
    have : ¬ (0 < W) := by omega
    simp [this]
  have hne : W ≠ 0 := by omega
  simp only [transcribe_audio, transcribeSegmented, runJob, hrange, hne, if_false,
    List.enum, List.enumFrom, List.foldl_nil]

/-- Witness for the amended claim C8 with a negative window length. -/
theorem c8_no_input_validation_witness :
    transcribe_audio (some (1 / 2 : ℚ)) (-3) [] (fun _ => .engineFail) "o.srt".toList
      = .ok ("o.srt".toList, []) :=
  (c8_no_input_validation).2.2 (1 / 2) (-3) [] (fun _ => .engineFail) "o.srt".toList
    (by norm_num)

/-! ## Return value of the transcriber (claim C9) -/

/-- Claim C9.  Whenever `transcribe_audio` returns without raising — on
the segmented path or the whole-file fallback — its return value is
exactly the output path it was given; with the caller's path
`os.path.join(dir, base + ".srt")` that value is a non-empty string, so
the caller's `if result:` falsiness test can never take the failure
branch after a normal return. -/
theorem c9_returns_output_path (probe : Option ℚ) (segment_length : ℤ)
    (wholeSegs : List RawSegment) (env : ℕ → WindowOutcome)
    (dir base : List Char) (r : List Char × List Cue)
    (h : transcribe_audio probe segment_length wholeSegs env (srtPath dir base)
      = .ok r) :
    r.1 = srtPath dir base ∧ pyTruthy r.1 = true := by
  have hr : r.1 = srtPath dir base := by
    cases probe with
    | none =>
      simp only [transcribe_audio, Except.ok.injEq] at h
      rw [← h]
    | some d =>
      simp only [transcribe_audio] at h
      by_cases hz : segment_length = 0
      · rw [if_pos hz] at h
        exact absurd h (by simp)
      · rw [if_neg hz] at h
        simp only [Except.ok.injEq] at h
        rw [← h]
  refine ⟨hr, ?_⟩
  rw [hr]
  cases dir with
  | nil => rfl
  | cons c cs => rfl

/-- Witness for claim C9 on the fallback path with the caller's derived
path. -/
theorem c9_returns_output_path_witness :
    pyTruthy (srtPath "d".toList "b".toList) = true :=
  (c9_returns_output_path none 30 [] (fun _ => .engineFail) "d".toList "b".toList
    (srtPath "d".toList "b".toList, []) rfl).2

/-! ## Totality of the segment extractor (claim C10) -/

/-- Claim C10.  `extract_segment` is total with respect to exceptions:
it returns `True` when the pydub body succeeds and `False` on any caught
internal error, never propagating an exception; a `False` return takes
the documented skip-this-window path, which emits no cue and consumes no
index. -/
theorem c10_extract_segment_total (body : Except String Unit) :
    (∀ e : String, extract_segment (.error e) = .ok false)
      ∧ extract_segment (.ok ()) = .ok true
      ∧ (∃ b : Bool, extract_segment body = .ok b)
      ∧ (∀ (duration : ℚ) (segment_length : ℤ) (st : JobState) (ws : ℤ) (lf : Bool),
          (runWindow duration segment_length st ws (.extractFail lf)).cues = st.cues
            ∧ (runWindow duration segment_length st ws (.extractFail lf)).idx
              = st.idx) := by
  refine ⟨fun e => rfl, rfl, ?_, fun d W st ws lf => ⟨rfl, rfl⟩⟩
  cases body with
  | ok u => exact ⟨true, rfl⟩
  | error e => exact ⟨false, rfl⟩

end SpeechToText
